import Mathlib

/-!
Shallow embedding of the intrusive reference-counting library
(`intrusive_ptr<T>` handle, `intrusive_ref_counter<T>` base, and the two
free-function hooks `intrusive_ptr_add_ref` / `intrusive_ptr_release`).

Pointers are modelled as natural numbers, `0` standing for `nullptr`.
The heap maps each address to the pointee's runtime state: an `alive`
flag (set to `false` by `delete`) and the embedded `unsigned int`
counter, kept below `2 ^ 32` with modular wrap-around exactly as the
C++ `++`/`--` on `unsigned int` behave.  Two ghost fields (`incs`,
`decs`) count, per address, how many times each hook has been invoked;
the library code never reads them.
-/

abbrev Ptr := Nat

def U32MOD : Nat := 2 ^ 32

/-- Pointwise function update used for heap updates. -/
def upd {α : Type} (f : Ptr → α) (a : Ptr) (v : α) : Ptr → α :=
  fun x => if x = a then v else f x

@[simp]
theorem upd_same {α : Type} (f : Ptr → α) (a : Ptr) (v : α) : upd f a v a = v := by
  simp [upd]

theorem upd_other {α : Type} (f : Ptr → α) (a x : Ptr) (v : α) (h : x ≠ a) :
    upd f a v x = f x := by
  simp [upd, h]

/-- Runtime state of one pointee: alive flag and the embedded counter
(`mutable std::atomic<unsigned int> counter = 0`). -/
structure Pointee where
  alive : Bool
  counter : Nat
deriving DecidableEq, Repr

/-- The memory: pointee state per address, plus ghost per-address totals of
hook invocations. -/
structure Mem where
  heap : Ptr → Pointee
  incs : Ptr → Nat
  decs : Ptr → Nat

/-- `void intrusive_ptr_add_ref(p) { ++p->counter; }` -/
def intrusive_ptr_add_ref (m : Mem) (p : Ptr) : Mem :=
  { m with
    heap := upd m.heap p ⟨(m.heap p).alive, ((m.heap p).counter + 1) % U32MOD⟩
    incs := upd m.incs p (m.incs p + 1) }

/-- Unsigned 32-bit decrement: the effect of `--counter` on an
`unsigned int` holding a value below `2 ^ 32` — wraps from 0 to
`2 ^ 32 - 1` (see `u32dec_eq_mod` for the equivalent modular form). -/
def u32dec (n : Nat) : Nat := if n = 0 then U32MOD - 1 else n - 1

/-- `void intrusive_ptr_release(p) { if (--p->counter == 0) delete p; }`
The decrement of an `unsigned int` wraps as `u32dec` does. -/
def intrusive_ptr_release (m : Mem) (p : Ptr) : Mem :=
  let c := u32dec (m.heap p).counter
  if c = 0 then
    { m with
      heap := upd m.heap p ⟨false, 0⟩
      decs := upd m.decs p (m.decs p + 1) }
  else
    { m with
      heap := upd m.heap p ⟨(m.heap p).alive, c⟩
      decs := upd m.decs p (m.decs p + 1) }

/-- The handle: `template <typename T> struct intrusive_ptr` holds exactly
one raw pointer, `T* m_pointer = nullptr`. -/
structure intrusive_ptr where
  m_pointer : Ptr
deriving DecidableEq, Repr

namespace intrusive_ptr

/-- `T* get() const noexcept { return m_pointer; }` -/
def get (a : intrusive_ptr) : Ptr := a.m_pointer

/-- `T* detach() noexcept` — returns the pointer and nulls the handle,
touching no counter. -/
def detach (a : intrusive_ptr) : Ptr × intrusive_ptr :=
  (a.m_pointer, ⟨0⟩)

/-- `explicit operator bool() const noexcept { return m_pointer != nullptr; }` -/
def toBool (a : intrusive_ptr) : Bool := a.m_pointer != 0

/-- `void swap(intrusive_ptr& b) noexcept { std::swap(m_pointer, b.m_pointer); }`
Returns the pair (this after, b after). -/
def swap (a b : intrusive_ptr) : intrusive_ptr × intrusive_ptr := (b, a)

end intrusive_ptr

/-- Default constructor: empty handle. -/
def ipCtorDefault : intrusive_ptr := ⟨0⟩

/-- `intrusive_ptr(T* p, bool add_ref = true)` : store `p`; if `p` non-null
and `add_ref`, invoke the increment hook. -/
def ipCtorRaw (m : Mem) (p : Ptr) (add_ref : Bool) : Mem × intrusive_ptr :=
  if p ≠ 0 ∧ add_ref then (intrusive_ptr_add_ref m p, ⟨p⟩) else (m, ⟨p⟩)

/-- `intrusive_ptr(intrusive_ptr const& r)` : share the pointer; increment
when non-null. -/
def ipCtorCopy (m : Mem) (r : intrusive_ptr) : Mem × intrusive_ptr :=
  if r.m_pointer ≠ 0 then (intrusive_ptr_add_ref m r.m_pointer, ⟨r.m_pointer⟩)
  else (m, ⟨r.m_pointer⟩)

/-- Converting copy constructor `intrusive_ptr(intrusive_ptr<Y> const& r)` :
same body on `r.get()`. -/
def ipCtorCopyConv (m : Mem) (r : intrusive_ptr) : Mem × intrusive_ptr :=
  if r.get ≠ 0 then (intrusive_ptr_add_ref m r.get, ⟨r.get⟩)
  else (m, ⟨r.get⟩)

/-- `intrusive_ptr(intrusive_ptr&& r)` : take the pointer, null the source,
no hook.  Returns (constructed handle, source after). -/
def ipCtorMove (r : intrusive_ptr) : intrusive_ptr × intrusive_ptr :=
  (⟨r.m_pointer⟩, ⟨0⟩)

/-- Converting move constructor `intrusive_ptr(intrusive_ptr<Y>&& r)` :
initialize from `r.get()`, then `r.detach()`. -/
def ipCtorMoveConv (r : intrusive_ptr) : intrusive_ptr × intrusive_ptr :=
  (⟨r.get⟩, (r.detach).2)

/-- `~intrusive_ptr()` : release when non-null. -/
def ipDtor (m : Mem) (a : intrusive_ptr) : Mem :=
  if a.m_pointer ≠ 0 then intrusive_ptr_release m a.m_pointer else m

/-- `operator=(intrusive_ptr const& r)` : when the pointers differ,
`intrusive_ptr(r).swap(*this)` — the temporary's destruction releases the
old content.  Returns (memory after, this after). -/
def ipAssignCopy (m : Mem) (this r : intrusive_ptr) : Mem × intrusive_ptr :=
  if r.m_pointer ≠ this.m_pointer then
    let mt := ipCtorCopy m r
    let sw := intrusive_ptr.swap this mt.2
    (ipDtor mt.1 sw.2, sw.1)
  else (m, this)

/-- Converting copy assignment `operator=(intrusive_ptr<Y> const& r)` :
no pointer check, always copy-and-swap. -/
def ipAssignCopyConv (m : Mem) (this r : intrusive_ptr) : Mem × intrusive_ptr :=
  let mt := ipCtorCopy m r
  let sw := intrusive_ptr.swap this mt.2
  (ipDtor mt.1 sw.2, sw.1)

/-- `operator=(T* r)` : `intrusive_ptr(r).swap(*this)` with the implicit
`add_ref = true`. -/
def ipAssignRaw (m : Mem) (this : intrusive_ptr) (r : Ptr) : Mem × intrusive_ptr :=
  let mt := ipCtorRaw m r true
  let sw := intrusive_ptr.swap this mt.2
  (ipDtor mt.1 sw.2, sw.1)

/-- `operator=(intrusive_ptr&& r)` : when the pointers differ,
`intrusive_ptr(std::move(r)).swap(*this)`.  Returns
(memory after, this after, r after). -/
def ipAssignMove (m : Mem) (this r : intrusive_ptr) :
    Mem × intrusive_ptr × intrusive_ptr :=
  if r.m_pointer ≠ this.m_pointer then
    let mv := ipCtorMove r
    let sw := intrusive_ptr.swap this mv.1
    (ipDtor m sw.2, sw.1, mv.2)
  else (m, this, r)

/-- Converting move assignment `operator=(intrusive_ptr<Y>&& r)` : no
pointer check, always move-and-swap. -/
def ipAssignMoveConv (m : Mem) (this r : intrusive_ptr) :
    Mem × intrusive_ptr × intrusive_ptr :=
  let mv := ipCtorMove r
  let sw := intrusive_ptr.swap this mv.1
  (ipDtor m sw.2, sw.1, mv.2)

/-- `void reset()` : release when non-null and clear. -/
def ipReset0 (m : Mem) (this : intrusive_ptr) : Mem × intrusive_ptr :=
  if this.m_pointer ≠ 0 then (intrusive_ptr_release m this.m_pointer, ⟨0⟩)
  else (m, this)

/-- `void reset(T* r)` : `intrusive_ptr(r).swap(*this)`. -/
def ipResetRaw (m : Mem) (this : intrusive_ptr) (r : Ptr) : Mem × intrusive_ptr :=
  let mt := ipCtorRaw m r true
  let sw := intrusive_ptr.swap this mt.2
  (ipDtor mt.1 sw.2, sw.1)

/-- `void reset(T* r, bool add_ref)` : `intrusive_ptr(r, add_ref).swap(*this)`. -/
def ipResetRawFlag (m : Mem) (this : intrusive_ptr) (r : Ptr) (add_ref : Bool) :
    Mem × intrusive_ptr :=
  let mt := ipCtorRaw m r add_ref
  let sw := intrusive_ptr.swap this mt.2
  (ipDtor mt.1 sw.2, sw.1)

/-- The composite C++ statement `h = intrusive_ptr(p, b);` : construct a
temporary, move-assign it into `h`, then destroy the temporary at the end
of the full expression. -/
def ipAssignFresh (m : Mem) (this : intrusive_ptr) (r : Ptr) (b : Bool) :
    Mem × intrusive_ptr :=
  let mt := ipCtorRaw m r b
  let am := ipAssignMove mt.1 this mt.2
  (ipDtor am.1 am.2.2, am.2.1)

/-- `operator==(intrusive_ptr, intrusive_ptr)` : raw-pointer identity. -/
def ipEq (a b : intrusive_ptr) : Bool := a.get == b.get

/-- `operator!=(intrusive_ptr, intrusive_ptr)`. -/
def ipNe (a b : intrusive_ptr) : Bool := a.get != b.get

/-- `operator==(intrusive_ptr, U*)`. -/
def ipEqHP (a : intrusive_ptr) (b : Ptr) : Bool := a.get == b

/-- `operator!=(intrusive_ptr, U*)`. -/
def ipNeHP (a : intrusive_ptr) (b : Ptr) : Bool := a.get != b

/-- `operator==(T*, intrusive_ptr)`. -/
def ipEqPH (a : Ptr) (b : intrusive_ptr) : Bool := a == b.get

/-- `operator!=(T*, intrusive_ptr)`. -/
def ipNePH (a : Ptr) (b : intrusive_ptr) : Bool := a != b.get

/-- `operator<` : `std::less<T*>` — the pointers' natural total order. -/
def ipLt (a b : intrusive_ptr) : Bool := decide (a.get < b.get)

/-- `template <typename T> struct intrusive_ref_counter` : the reusable
counter base, holding only the counter value. -/
structure intrusive_ref_counter where
  counter : Nat
deriving DecidableEq, Repr

/-- `intrusive_ref_counter() noexcept = default;` — the member initializer
`counter = 0` applies. -/
def ircDefaultCtor : intrusive_ref_counter := ⟨0⟩

/-- `intrusive_ref_counter(const intrusive_ref_counter&) noexcept {}` — the
body ignores the source, so the member initializer `counter = 0` applies. -/
def ircCopyCtor (_r : intrusive_ref_counter) : intrusive_ref_counter := ⟨0⟩

/-- `operator=(const intrusive_ref_counter&) { return *this; }` — the target
is returned unchanged. -/
def ircCopyAssign (this _r : intrusive_ref_counter) : intrusive_ref_counter :=
  this

/-- `unsigned int use_count() const noexcept { return counter; }` -/
def intrusive_ref_counter.use_count (x : intrusive_ref_counter) : Nat :=
  x.counter

/-! Basic facts about the two hooks, shared by several developments below. -/

theorem addRef_heap_same (m : Mem) (p : Ptr) :
    (intrusive_ptr_add_ref m p).heap p
      = ⟨(m.heap p).alive, ((m.heap p).counter + 1) % U32MOD⟩ := by
  simp [intrusive_ptr_add_ref]

theorem addRef_heap_other (m : Mem) (p x : Ptr) (h : x ≠ p) :
    (intrusive_ptr_add_ref m p).heap x = m.heap x := by
  simp [intrusive_ptr_add_ref, upd_other _ _ _ _ h]

theorem addRef_incs_same (m : Mem) (p : Ptr) :
    (intrusive_ptr_add_ref m p).incs p = m.incs p + 1 := by
  simp [intrusive_ptr_add_ref]

theorem addRef_incs_other (m : Mem) (p x : Ptr) (h : x ≠ p) :
    (intrusive_ptr_add_ref m p).incs x = m.incs x := by
  simp [intrusive_ptr_add_ref, upd_other _ _ _ _ h]


theorem addRef_decs (m : Mem) (p : Ptr) :
    (intrusive_ptr_add_ref m p).decs = m.decs := rfl

theorem U32MOD_val : U32MOD = 4294967296 := by
  rw [U32MOD]
  norm_num

/-- `u32dec` is exactly the modular decrement of an in-range unsigned
32-bit value. -/
theorem u32dec_eq_mod (n : Nat) (h : n < U32MOD) :
    u32dec n = (n + (U32MOD - 1)) % U32MOD := by
  rw [u32dec]
  rw [U32MOD_val] at h ⊢
  by_cases h0 : n = 0
  · rw [if_pos h0, h0]
  · rw [if_neg h0]
    omega

theorem u32dec_zero : u32dec 0 = U32MOD - 1 := by
  rw [u32dec, if_pos rfl]

theorem u32dec_pos (n : Nat) (h : 1 ≤ n) : u32dec n = n - 1 := by
  rw [u32dec, if_neg (by omega)]

theorem release_heap_other (m : Mem) (p x : Ptr) (h : x ≠ p) :
    (intrusive_ptr_release m p).heap x = m.heap x := by
  rw [intrusive_ptr_release]
  by_cases hc : u32dec (m.heap p).counter = 0
  · rw [if_pos hc]; exact upd_other _ _ _ _ h
  · rw [if_neg hc]; exact upd_other _ _ _ _ h

theorem release_incs (m : Mem) (p : Ptr) :
    (intrusive_ptr_release m p).incs = m.incs := by
  rw [intrusive_ptr_release]
  by_cases hc : u32dec (m.heap p).counter = 0
  · rw [if_pos hc]
  · rw [if_neg hc]

theorem release_decs_same (m : Mem) (p : Ptr) :
    (intrusive_ptr_release m p).decs p = m.decs p + 1 := by
  rw [intrusive_ptr_release]
  by_cases hc : u32dec (m.heap p).counter = 0
  · rw [if_pos hc]; exact upd_same _ _ _
  · rw [if_neg hc]; exact upd_same _ _ _

theorem release_decs_other (m : Mem) (p x : Ptr) (h : x ≠ p) :
    (intrusive_ptr_release m p).decs x = m.decs x := by
  rw [intrusive_ptr_release]
  by_cases hc : u32dec (m.heap p).counter = 0
  · rw [if_pos hc]; exact upd_other _ _ _ _ h
  · rw [if_neg hc]; exact upd_other _ _ _ _ h

theorem release_heap_pos (m : Mem) (p : Ptr) (a : Bool) (n : Nat)
    (hh : m.heap p = ⟨a, n⟩) (h2 : 2 ≤ n) (hlt : n < U32MOD) :
    (intrusive_ptr_release m p).heap p = ⟨a, n - 1⟩ := by
  rw [intrusive_ptr_release, hh]
  have hc : u32dec (Pointee.mk a n).counter = n - 1 := u32dec_pos n (by omega)
  rw [hc, if_neg (by omega)]
  exact upd_same _ _ _

theorem release_heap_one (m : Mem) (p : Ptr) (a : Bool)
    (hh : m.heap p = ⟨a, 1⟩) :
    (intrusive_ptr_release m p).heap p = ⟨false, 0⟩ := by
  rw [intrusive_ptr_release, hh]
  have hc : u32dec (Pointee.mk a 1).counter = 0 := u32dec_pos 1 (by omega)
  rw [hc, if_pos rfl]
  exact upd_same _ _ _

theorem release_heap_zero (m : Mem) (p : Ptr) (a : Bool)
    (hh : m.heap p = ⟨a, 0⟩) :
    (intrusive_ptr_release m p).heap p = ⟨a, U32MOD - 1⟩ := by
  rw [intrusive_ptr_release, hh]
  have hc : u32dec (Pointee.mk a 0).counter = U32MOD - 1 := u32dec_zero
  rw [hc, if_neg (by rw [U32MOD_val]; omega)]
  exact upd_same _ _ _

/-- The handle a raw-pointer constructor returns is just the wrapped
pointer, whichever branch was taken. -/
theorem ctorRaw_handle (m : Mem) (r : Ptr) (b : Bool) :
    (ipCtorRaw m r b).2 = ⟨r⟩ := by
  rw [ipCtorRaw]
  split <;> rfl

/-! Concrete memories used by witnesses and counterexamples. -/

/-- A memory whose every pointee is alive with counter 1. -/
def memOne : Mem := ⟨fun _ => ⟨true, 1⟩, fun _ => 0, fun _ => 0⟩

/-- A memory whose every pointee is alive with counter 2. -/
def memTwo : Mem := ⟨fun _ => ⟨true, 2⟩, fun _ => 0, fun _ => 0⟩

/-- A memory whose every pointee is alive with counter 0. -/
def memZero : Mem := ⟨fun _ => ⟨true, 0⟩, fun _ => 0, fun _ => 0⟩

/-- C2: copy- or move-assigning a handle to itself (the source holds the
same underlying pointer as the target) takes the pointer-equality branch
and is a complete no-op: the memory — counters, alive flags, hook totals —
and both handles are unchanged, so the count is never decremented, even
transiently, and in particular never reaches zero when `use_count()` was 1
beforehand. -/
theorem C2_self_assign_noop (m : Mem) (this r : intrusive_ptr)
    (h : r.m_pointer = this.m_pointer) :
    ipAssignCopy m this r = (m, this) ∧
    ipAssignMove m this r = (m, this, r) := by
  constructor
  · rw [ipAssignCopy, if_neg (by simp [h])]
  · rw [ipAssignMove, if_neg (by simp [h])]

/-- C2 witness: self-assignment at counter exactly 1 leaves everything
unchanged. -/
theorem C2_self_assign_noop_witness :
    ipAssignCopy memOne ⟨1⟩ ⟨1⟩ = (memOne, ⟨1⟩) ∧
    ipAssignMove memOne ⟨1⟩ ⟨1⟩ = (memOne, ⟨1⟩, ⟨1⟩) :=
  C2_self_assign_noop memOne ⟨1⟩ ⟨1⟩ rfl

/-- C4: for a non-empty handle, `detach()` hands back the stored pointer
and empties the handle — it never takes the memory, so no decrement can
occur — and re-wrapping the returned pointer with the already-referenced
construction form (`add_ref = false`) returns the memory untouched, so
`use_count()` is unchanged across the whole round trip. -/
theorem C4_detach_roundtrip (m : Mem) (h : intrusive_ptr)
    (hne : h.m_pointer ≠ 0) :
    h.detach = (h.m_pointer, (⟨0⟩ : intrusive_ptr)) ∧
    ipCtorRaw m (h.detach).1 false = (m, ⟨h.m_pointer⟩) ∧
    ((ipCtorRaw m (h.detach).1 false).1.heap h.m_pointer).counter
      = (m.heap h.m_pointer).counter := by
  refine ⟨rfl, ?_, ?_⟩
  · rw [ipCtorRaw, if_neg (by simp)]
    rfl
  · rw [ipCtorRaw, if_neg (by simp)]

/-- C4 witness at pointer 1 and counter 1. -/
theorem C4_detach_roundtrip_witness :
    (⟨1⟩ : intrusive_ptr).detach = (1, (⟨0⟩ : intrusive_ptr)) ∧
    ipCtorRaw memOne ((⟨1⟩ : intrusive_ptr).detach).1 false = (memOne, ⟨1⟩) ∧
    ((ipCtorRaw memOne ((⟨1⟩ : intrusive_ptr).detach).1 false).1.heap 1).counter
      = (memOne.heap 1).counter :=
  C4_detach_roundtrip memOne ⟨1⟩ (by decide)

/-- C5: every construction and assignment path fed a null raw pointer or
an empty handle is legal, yields an empty handle, and skips the increment
hook entirely (the ghost `incs` totals are unchanged); when the target is
empty too, the memory is completely untouched. -/
theorem C5_null_is_noop (m : Mem) (b : Bool) (this : intrusive_ptr) :
    ipCtorRaw m 0 b = (m, ⟨0⟩) ∧
    ipCtorCopy m ⟨0⟩ = (m, ⟨0⟩) ∧
    ipCtorCopyConv m ⟨0⟩ = (m, ⟨0⟩) ∧
    (ipAssignRaw m this 0).2 = ⟨0⟩ ∧
    (ipAssignRaw m this 0).1.incs = m.incs ∧
    (ipAssignCopy m this ⟨0⟩).2.m_pointer = 0 ∧
    (ipAssignCopy m this ⟨0⟩).1.incs = m.incs ∧
    ipAssignRaw m ⟨0⟩ 0 = (m, ⟨0⟩) ∧
    ipAssignCopy m ⟨0⟩ ⟨0⟩ = (m, ⟨0⟩) := by
  obtain ⟨tp⟩ := this
  have hraw : ∀ bb : Bool, ipCtorRaw m 0 bb = (m, ⟨0⟩) := by
    intro bb
    rw [ipCtorRaw, if_neg (by simp)]
  have hcopy : ipCtorCopy m ⟨0⟩ = (m, ⟨0⟩) := by
    rw [ipCtorCopy, if_neg (by simp)]
  refine ⟨hraw b, hcopy, ?_, ?_, ?_, ?_, ?_, ?_, ?_⟩
  · rw [ipCtorCopyConv, if_neg (by simp [intrusive_ptr.get])]
    rfl
  · simp only [ipAssignRaw, hraw, intrusive_ptr.swap]
  · simp only [ipAssignRaw, hraw, intrusive_ptr.swap, ipDtor]
    by_cases htp : tp = 0
    · simp [htp]
    · simp only [if_pos (by simpa using htp)]
      rw [release_incs]
  · by_cases htp : tp = 0
    · rw [ipAssignCopy, if_neg (by simp [htp])]
      simp [htp]
    · rw [ipAssignCopy, if_pos (by simpa using Ne.symm htp)]
      simp only [hcopy, intrusive_ptr.swap]
  · by_cases htp : tp = 0
    · rw [ipAssignCopy, if_neg (by simp [htp])]
    · rw [ipAssignCopy, if_pos (by simpa using Ne.symm htp)]
      simp only [hcopy, intrusive_ptr.swap, ipDtor]
      rw [if_pos (by simpa using htp), release_incs]
  · simp only [ipAssignRaw, hraw, intrusive_ptr.swap, ipDtor]
    rw [if_neg (by simp)]
  · rw [ipAssignCopy, if_neg (by simp)]

/-- C6: the counter base never copies or merges counts: default
construction and copy construction both start the counter at 0, and
copy-assignment returns the target unchanged. -/
theorem C6_counter_base_never_copies (t r : intrusive_ref_counter) :
    ircDefaultCtor.use_count = 0 ∧
    (ircCopyCtor r).use_count = 0 ∧
    (ircCopyAssign t r).use_count = t.use_count ∧
    ircCopyAssign t r = t :=
  ⟨rfl, rfl, rfl, rfl⟩

/-- C7: `reset(p)` is the `add_ref = true` case of `reset(p, b)`, which is
itself behaviorally identical — same resulting memory (hence the same net
counter effect on the old and the new pointee) and same resulting handle —
to assigning the freshly constructed temporary `intrusive_ptr(p, b)` to
the handle; and `reset(p)` coincides with `operator=(T*)`. -/
theorem C7_reset_equals_assign (m : Mem) (this : intrusive_ptr)
    (r : Ptr) (b : Bool) :
    ipResetRaw m this r = ipResetRawFlag m this r true ∧
    ipResetRawFlag m this r b = ipAssignFresh m this r b ∧
    ipResetRaw m this r = ipAssignRaw m this r := by
  refine ⟨rfl, ?_, rfl⟩
  obtain ⟨tp⟩ := this
  by_cases hr : r = tp
  · subst hr
    simp only [ipResetRawFlag, ipAssignFresh, ipAssignMove, ipCtorMove,
      intrusive_ptr.swap, ctorRaw_handle]
    rw [if_neg (by simp)]
  · simp only [ipResetRawFlag, ipAssignFresh, ipAssignMove, ipCtorMove,
      intrusive_ptr.swap, ctorRaw_handle]
    rw [if_pos (by simpa using hr)]
    simp [ipDtor]

/-- C8: all comparison operators are pure raw-pointer-identity relations:
handle/handle and handle/raw-pointer equality in both operand orders hold
exactly when the raw pointers are equal, inequality is the negation, two
empty handles compare equal, a handle equals a raw pointer exactly when
`get()` returns it, `operator<` is the pointers' natural total order, and
equality is reflexive and symmetric. -/
theorem C8_comparisons_pointer_identity (a b : intrusive_ptr) (p : Ptr) :
    (ipEq a b = true ↔ a.get = b.get) ∧
    (ipNe a b = !ipEq a b) ∧
    (ipEqHP a p = true ↔ a.get = p) ∧
    (ipNeHP a p = !ipEqHP a p) ∧
    (ipEqPH p a = ipEqHP a p) ∧
    (ipNePH p a = ipNeHP a p) ∧
    ipEq ⟨0⟩ ⟨0⟩ = true ∧
    (ipLt a b = true ↔ a.get < b.get) ∧
    ipEq a a = true ∧
    ipEq a b = ipEq b a := by
  refine ⟨by simp [ipEq], rfl, by simp [ipEqHP], rfl, ?_, ?_, by simp [ipEq],
    by simp [ipLt], by simp [ipEq], ?_⟩
  · exact Bool.beq_comm
  · exact congrArg (fun x => !x) Bool.beq_comm
  · exact Bool.beq_comm

/-- C3 counterexample: move-assigning between handles that hold the same
non-null pointer (here, the self-move `a = std::move(a)` with `a`
wrapping pointer 1 at count 2) takes the pointer-equality branch and is a
no-op, so the moved-from source handle does NOT become empty — refuting
"for every move of a handle … the moved-from source handle becomes empty
(null) afterward". -/
theorem C3_move_empties_source_counterexample :
    (ipAssignMove memTwo ⟨1⟩ ⟨1⟩).2.2.m_pointer ≠ 0 := by decide

/-- C3 amended: a move construction (plain or converting) never touches
any counter and empties the source; a move assignment whose source
pointer differs from the target's releases only the target's old pointee
— the moved pointee's state and hook totals are untouched — and empties
the source (the remaining case, source pointer equal to the target's, is
a no-op for the same-type overload, leaving the source unchanged). -/
theorem C3_moves_transfer_without_hooks (m : Mem) (this r : intrusive_ptr)
    (hne : r.m_pointer ≠ this.m_pointer) :
    ipCtorMove r = (⟨r.m_pointer⟩, ⟨0⟩) ∧
    ipCtorMoveConv r = (⟨r.m_pointer⟩, ⟨0⟩) ∧
    ipAssignMove m this r = (ipDtor m this, ⟨r.m_pointer⟩, ⟨0⟩) ∧
    ipAssignMoveConv m this r = (ipDtor m this, ⟨r.m_pointer⟩, ⟨0⟩) ∧
    (ipDtor m this).heap r.m_pointer = m.heap r.m_pointer ∧
    (ipDtor m this).incs r.m_pointer = m.incs r.m_pointer ∧
    (ipDtor m this).decs r.m_pointer = m.decs r.m_pointer := by
  have hmem : ∀ x : Ptr, x ≠ this.m_pointer →
      (ipDtor m this).heap x = m.heap x ∧
      (ipDtor m this).incs x = m.incs x ∧
      (ipDtor m this).decs x = m.decs x := by
    intro x hx
    rw [ipDtor]
    by_cases ht : this.m_pointer = 0
    · rw [if_neg (by simpa using ht)]
      exact ⟨rfl, rfl, rfl⟩
    · rw [if_pos (by simpa using ht)]
      exact ⟨release_heap_other m this.m_pointer x hx,
        congrFun (release_incs m this.m_pointer) x,
        release_decs_other m this.m_pointer x hx⟩
  refine ⟨rfl, rfl, ?_, rfl, (hmem _ hne).1, (hmem _ hne).2.1, (hmem _ hne).2.2⟩
  rw [ipAssignMove, if_pos hne]
  rfl

/-- C3 amended witness: moving pointer 1 into a handle holding pointer 2
empties the source and leaves pointee 1 untouched. -/
theorem C3_moves_transfer_without_hooks_witness :
    ipCtorMove ⟨1⟩ = (⟨1⟩, ⟨0⟩) ∧
    ipCtorMoveConv ⟨1⟩ = (⟨1⟩, ⟨0⟩) ∧
    ipAssignMove memTwo ⟨2⟩ ⟨1⟩ = (ipDtor memTwo ⟨2⟩, ⟨1⟩, ⟨0⟩) ∧
    ipAssignMoveConv memTwo ⟨2⟩ ⟨1⟩ = (ipDtor memTwo ⟨2⟩, ⟨1⟩, ⟨0⟩) ∧
    (ipDtor memTwo ⟨2⟩).heap 1 = memTwo.heap 1 ∧
    (ipDtor memTwo ⟨2⟩).incs 1 = memTwo.incs 1 ∧
    (ipDtor memTwo ⟨2⟩).decs 1 = memTwo.decs 1 :=
  C3_moves_transfer_without_hooks memTwo ⟨2⟩ ⟨1⟩ (by decide)

/-- C9: assigning a handle's own raw pointer back to it (`h = h.get()`)
goes through `operator=(T*)` with no pointer check, but the temporary's
increment strictly precedes the old content's release, so with
`use_count() = n ≥ 1` the counter moves `n → n + 1 → n`: the handle and
the pointee's state are unchanged, the pointee stays alive, and the
intermediate states (spelled out in the last two conjuncts) never hit
the zero test of the release hook. -/
theorem C9_raw_self_assign_safe (m : Mem) (h : intrusive_ptr) (n : Nat)
    (hp : h.m_pointer ≠ 0)
    (hh : m.heap h.m_pointer = ⟨true, n⟩)
    (h1 : 1 ≤ n) (hlt : n + 1 < U32MOD) :
    (ipAssignRaw m h h.m_pointer).2 = h ∧
    (ipAssignRaw m h h.m_pointer).1.heap h.m_pointer = ⟨true, n⟩ ∧
    (intrusive_ptr_add_ref m h.m_pointer).heap h.m_pointer = ⟨true, n + 1⟩ ∧
    (intrusive_ptr_release (intrusive_ptr_add_ref m h.m_pointer)
        h.m_pointer).heap h.m_pointer = ⟨true, n⟩ := by
  have hadd : (intrusive_ptr_add_ref m h.m_pointer).heap h.m_pointer
      = ⟨true, n + 1⟩ := by
    rw [addRef_heap_same, hh, Nat.mod_eq_of_lt hlt]
  have hrel : (intrusive_ptr_release (intrusive_ptr_add_ref m h.m_pointer)
      h.m_pointer).heap h.m_pointer = ⟨true, n⟩ := by
    have := release_heap_pos (intrusive_ptr_add_ref m h.m_pointer) h.m_pointer
      true (n + 1) hadd (by omega) hlt
    simpa using this
  have hsnd : (ipAssignRaw m h h.m_pointer).2 = (ipCtorRaw m h.m_pointer true).2 :=
    rfl
  have hfst : (ipAssignRaw m h h.m_pointer).1
      = ipDtor (ipCtorRaw m h.m_pointer true).1 h := rfl
  have hctor1 : (ipCtorRaw m h.m_pointer true).1
      = intrusive_ptr_add_ref m h.m_pointer := by
    rw [ipCtorRaw, if_pos (show h.m_pointer ≠ 0 ∧ true = true from ⟨hp, rfl⟩)]
  refine ⟨?_, ?_, hadd, hrel⟩
  · rw [hsnd, ctorRaw_handle]
  · rw [hfst, hctor1, ipDtor, if_pos hp]
    exact hrel

/-- C9 witness: `h = h.get()` at pointer 1 with counter exactly 1. -/
theorem C9_raw_self_assign_safe_witness :
    (ipAssignRaw memOne ⟨1⟩ 1).2 = ⟨1⟩ ∧
    (ipAssignRaw memOne ⟨1⟩ 1).1.heap 1 = ⟨true, 1⟩ ∧
    (intrusive_ptr_add_ref memOne 1).heap 1 = ⟨true, 2⟩ ∧
    (intrusive_ptr_release (intrusive_ptr_add_ref memOne 1) 1).heap 1
      = ⟨true, 1⟩ :=
  C9_raw_self_assign_safe memOne ⟨1⟩ 1 (by decide) rfl (by decide)
    (by rw [U32MOD_val]; omega)

/-- C10: invoking the release hook on a pointee whose counter is already 0
(one release more than the add_refs performed) wraps the unsigned counter
to `2 ^ 32 - 1`, so the zero test fails and no deletion happens: the
pointee stays alive on that call. -/
theorem C10_release_at_zero_wraps (m : Mem) (p : Ptr)
    (hh : m.heap p = ⟨true, 0⟩) :
    (intrusive_ptr_release m p).heap p = ⟨true, U32MOD - 1⟩ ∧
    ((intrusive_ptr_release m p).heap p).alive = true :=
  ⟨release_heap_zero m p true hh, by rw [release_heap_zero m p true hh]⟩

/-- C10 witness at pointer 1. -/
theorem C10_release_at_zero_wraps_witness :
    (intrusive_ptr_release memZero 1).heap 1 = ⟨true, U32MOD - 1⟩ ∧
    ((intrusive_ptr_release memZero 1).heap 1).alive = true :=
  C10_release_at_zero_wraps memZero 1 rfl

/-!
Trace semantics for C1: finitely many handles aliasing one designated
pointee `p`.  Each handle lives in a slot; a destroyed handle leaves a
dead slot so indices stay stable.  `k` counts raw references to `p`
handed out by `detach()` and not yet re-adopted (the only way, besides a
handle, to legitimately hold one of the pointee's counted references).
An operation that would use the pointee after destruction, or adopt a
reference that was never handed out, is invalid and the trace rejects it.
-/

/-- A handle slot: a live handle, or the tombstone of a destroyed one. -/
inductive HSlot where
  | live (h : intrusive_ptr)
  | dead
deriving DecidableEq, Repr

/-- One handle operation of a trace over the designated pointee. -/
inductive Op where
  | mkRaw (addRef : Bool)
  | mkNull
  | copyFrom (i : Nat)
  | moveFrom (i : Nat)
  | assignCopy (d s : Nat)
  | assignMove (d s : Nat)
  | assignRaw0 (d : Nat)
  | assignRawP (d : Nat)
  | reset (d : Nat)
  | resetP (d : Nat) (addRef : Bool)
  | detach (d : Nat)
  | destroy (d : Nat)
deriving DecidableEq, Repr

/-- A trace state: the memory, the handle slots, and the number of
outstanding detached references to the designated pointee. -/
structure Config where
  mem : Mem
  hs : List HSlot
  k : Nat

/-- One step of the trace semantics: executes a single handle operation
against the designated pointee `p`, using the handle-operation embeddings
above; `none` marks an invalid operation (out-of-range or dead slot,
using the pointee after destruction, or adopting a never-granted
reference). -/
def step (p : Ptr) (c : Config) : Op → Option Config
  | .mkRaw true =>
    if (c.mem.heap p).alive then
      some { mem := (ipCtorRaw c.mem p true).1,
             hs := c.hs ++ [.live (ipCtorRaw c.mem p true).2], k := c.k }
    else none
  | .mkRaw false =>
    if 0 < c.k then
      some { mem := (ipCtorRaw c.mem p false).1,
             hs := c.hs ++ [.live (ipCtorRaw c.mem p false).2], k := c.k - 1 }
    else none
  | .mkNull => some { mem := c.mem, hs := c.hs ++ [.live ipCtorDefault], k := c.k }
  | .copyFrom i =>
    match c.hs[i]? with
    | some (.live h) =>
      some { mem := (ipCtorCopy c.mem h).1,
             hs := c.hs ++ [.live (ipCtorCopy c.mem h).2], k := c.k }
    | _ => none
  | .moveFrom i =>
    match c.hs[i]? with
    | some (.live h) =>
      some { mem := c.mem,
             hs := (c.hs.set i (.live (ipCtorMove h).2)) ++ [.live (ipCtorMove h).1],
             k := c.k }
    | _ => none
  | .assignCopy d s =>
    match c.hs[d]?, c.hs[s]? with
    | some (.live hd), some (.live hsc) =>
      some { mem := (ipAssignCopy c.mem hd hsc).1,
             hs := c.hs.set d (.live (ipAssignCopy c.mem hd hsc).2), k := c.k }
    | _, _ => none
  | .assignMove d s =>
    match c.hs[d]?, c.hs[s]? with
    | some (.live hd), some (.live hsc) =>
      some { mem := (ipAssignMove c.mem hd hsc).1,
             hs := (c.hs.set s (.live (ipAssignMove c.mem hd hsc).2.2)).set d
                     (.live (ipAssignMove c.mem hd hsc).2.1),
             k := c.k }
    | _, _ => none
  | .assignRaw0 d =>
    match c.hs[d]? with
    | some (.live hd) =>
      some { mem := (ipAssignRaw c.mem hd 0).1,
             hs := c.hs.set d (.live (ipAssignRaw c.mem hd 0).2), k := c.k }
    | _ => none
  | .assignRawP d =>
    if (c.mem.heap p).alive then
      match c.hs[d]? with
      | some (.live hd) =>
        some { mem := (ipAssignRaw c.mem hd p).1,
               hs := c.hs.set d (.live (ipAssignRaw c.mem hd p).2), k := c.k }
      | _ => none
    else none
  | .reset d =>
    match c.hs[d]? with
    | some (.live hd) =>
      some { mem := (ipReset0 c.mem hd).1,
             hs := c.hs.set d (.live (ipReset0 c.mem hd).2), k := c.k }
    | _ => none
  | .resetP d b =>
    match c.hs[d]? with
    | some (.live hd) =>
      if b then
        if (c.mem.heap p).alive then
          some { mem := (ipResetRawFlag c.mem hd p b).1,
                 hs := c.hs.set d (.live (ipResetRawFlag c.mem hd p b).2),
                 k := c.k }
        else none
      else
        if 0 < c.k then
          some { mem := (ipResetRawFlag c.mem hd p b).1,
                 hs := c.hs.set d (.live (ipResetRawFlag c.mem hd p b).2),
                 k := c.k - 1 }
        else none
    | _ => none
  | .detach d =>
    match c.hs[d]? with
    | some (.live hd) =>
      some { mem := c.mem, hs := c.hs.set d (.live (hd.detach).2),
             k := if hd.m_pointer = 0 then c.k else c.k + 1 }
    | _ => none
  | .destroy d =>
    match c.hs[d]? with
    | some (.live hd) =>
      some { mem := ipDtor c.mem hd, hs := c.hs.set d .dead, k := c.k }
    | _ => none

/-- Run a whole trace; `none` when any operation is invalid. -/
def run (p : Ptr) (c : Config) : List Op → Option Config
  | [] => some c
  | op :: ops =>
    match step p c op with
    | some c' => run p c' ops
    | none => none

/-- Whether a slot holds a live handle owning the designated pointee. -/
def slotOwns (p : Ptr) : HSlot → Bool
  | .live h => h.m_pointer == p
  | .dead => false

/-- Number of live handles owning the designated pointee. -/
def owning (p : Ptr) (c : Config) : Nat := c.hs.countP (slotOwns p)

/-- Currently-live owning references: owning handles plus outstanding
detached references. -/
def refs (p : Ptr) (c : Config) : Nat := owning p c + c.k

/-- Every live slot holds either the null pointer or the designated
pointee. -/
def SlotsWF (p : Ptr) (l : List HSlot) : Prop :=
  ∀ h : intrusive_ptr, HSlot.live h ∈ l → h.m_pointer = 0 ∨ h.m_pointer = p

/-- The C1 invariant: the embedded counter equals the number of owning
references, the hook totals balance (increments performed equal
decrements performed plus the still-outstanding references), a destroyed
pointee has no owning references left (destruction happens only at the
moment the count reaches zero), and a live pointee is either still
referenced or was never referenced at all. -/
def TraceInv (p : Ptr) (c : Config) : Prop :=
  p ≠ 0 ∧ SlotsWF p c.hs ∧
  (c.mem.heap p).counter = refs p c ∧
  c.mem.incs p = c.mem.decs p + refs p c ∧
  ((c.mem.heap p).alive = false → refs p c = 0) ∧
  ((c.mem.heap p).alive = true → 0 < refs p c ∨ c.mem.incs p = 0)

theorem countP_set_aux (q : HSlot → Bool) (l : List HSlot) :
    ∀ (i : Nat) (x : HSlot) (hi : i < l.length),
      (l.set i x).countP q + (if q l[i] then 1 else 0)
        = l.countP q + (if q x then 1 else 0) := by
  induction l with
  | nil => intro i x hi; simp at hi
  | cons a l ih =>
    intro i x hi
    cases i with
    | zero =>
      simp only [List.set_cons_zero, List.countP_cons, List.getElem_cons_zero]
      omega
    | succ i =>
      have h2 : i < l.length := by simpa using hi
      have := ih i x h2
      simp only [List.set_cons_succ, List.countP_cons, List.getElem_cons_succ]
      omega

theorem addRef_inv_spec (m : Mem) (p : Ptr) (a : Bool) (R : Nat)
    (hh : m.heap p = ⟨a, R⟩) (hlt : R + 1 < U32MOD) :
    (intrusive_ptr_add_ref m p).heap p = ⟨a, R + 1⟩ := by
  rw [addRef_heap_same]
  simp only [hh]
  rw [Nat.mod_eq_of_lt hlt]

theorem release_inv_spec (m : Mem) (p : Ptr) (R : Nat)
    (hh : m.heap p = ⟨true, R⟩) (h1 : 1 ≤ R) (hlt : R < U32MOD) :
    (intrusive_ptr_release m p).heap p = ⟨decide (0 < R - 1), R - 1⟩ := by
  rcases Nat.lt_or_ge R 2 with h2 | h2
  · have hR : R = 1 := by omega
    subst hR
    rw [release_heap_one m p true hh]
    rfl
  · rw [release_heap_pos m p true R hh h2 hlt]
    have hd : decide (0 < R - 1) = true := by
      simp only [decide_eq_true_eq]
      omega
    rw [hd]

/-! Branch-evaluation lemmas for the handle operations. -/

theorem ctorCopy_own (m : Mem) (h : intrusive_ptr) (hp : h.m_pointer ≠ 0) :
    ipCtorCopy m h = (intrusive_ptr_add_ref m h.m_pointer, ⟨h.m_pointer⟩) := by
  rw [ipCtorCopy, if_pos hp]

theorem ctorCopy_null (m : Mem) (h : intrusive_ptr) (hp : h.m_pointer = 0) :
    ipCtorCopy m h = (m, ⟨h.m_pointer⟩) := by
  rw [ipCtorCopy, if_neg (by simp [hp])]

theorem ctorRaw_false (m : Mem) (r : Ptr) : ipCtorRaw m r false = (m, ⟨r⟩) := by
  rw [ipCtorRaw, if_neg (by simp)]

theorem ctorRaw_true (m : Mem) (r : Ptr) (hr : r ≠ 0) :
    ipCtorRaw m r true = (intrusive_ptr_add_ref m r, ⟨r⟩) := by
  rw [ipCtorRaw, if_pos (show r ≠ 0 ∧ true = true from ⟨hr, rfl⟩)]

theorem dtor_null (m : Mem) (a : intrusive_ptr) (ha : a.m_pointer = 0) :
    ipDtor m a = m := by
  rw [ipDtor, if_neg (by simp [ha])]

theorem dtor_own (m : Mem) (a : intrusive_ptr) (ha : a.m_pointer ≠ 0) :
    ipDtor m a = intrusive_ptr_release m a.m_pointer := by
  rw [ipDtor, if_pos ha]

theorem assignRaw_unfold (m : Mem) (this : intrusive_ptr) (r : Ptr) :
    ipAssignRaw m this r
      = (ipDtor (ipCtorRaw m r true).1 this, (ipCtorRaw m r true).2) := rfl

theorem resetFlag_unfold (m : Mem) (this : intrusive_ptr) (r : Ptr) (b : Bool) :
    ipResetRawFlag m this r b
      = (ipDtor (ipCtorRaw m r b).1 this, (ipCtorRaw m r b).2) := rfl

theorem assignCopy_ne (m : Mem) (this r : intrusive_ptr)
    (hne : r.m_pointer ≠ this.m_pointer) :
    ipAssignCopy m this r
      = (ipDtor (ipCtorCopy m r).1 this, (ipCtorCopy m r).2) := by
  rw [ipAssignCopy, if_pos hne]
  rfl

theorem assignCopy_eq (m : Mem) (this r : intrusive_ptr)
    (heq : r.m_pointer = this.m_pointer) :
    ipAssignCopy m this r = (m, this) := by
  rw [ipAssignCopy, if_neg (by simp [heq])]

theorem assignMove_ne (m : Mem) (this r : intrusive_ptr)
    (hne : r.m_pointer ≠ this.m_pointer) :
    ipAssignMove m this r = (ipDtor m this, ⟨r.m_pointer⟩, ⟨0⟩) := by
  rw [ipAssignMove, if_pos hne]
  rfl

theorem assignMove_eq (m : Mem) (this r : intrusive_ptr)
    (heq : r.m_pointer = this.m_pointer) :
    ipAssignMove m this r = (m, this, r) := by
  rw [ipAssignMove, if_neg (by simp [heq])]

theorem reset0_null (m : Mem) (a : intrusive_ptr) (ha : a.m_pointer = 0) :
    ipReset0 m a = (m, a) := by
  rw [ipReset0, if_neg (by simp [ha])]

theorem reset0_own (m : Mem) (a : intrusive_ptr) (ha : a.m_pointer ≠ 0) :
    ipReset0 m a = (intrusive_ptr_release m a.m_pointer, ⟨0⟩) := by
  rw [ipReset0, if_pos ha]

/-! Counting and well-formedness helpers for the trace invariant. -/

theorem slotOwns_live (p : Ptr) (h : intrusive_ptr) :
    slotOwns p (.live h) = (h.m_pointer == p) := rfl

theorem owning_pos (p : Ptr) (l : List HSlot) (i : Nat) (h : intrusive_ptr)
    (hEl : l[i]? = some (.live h)) (hp : h.m_pointer = p) :
    0 < l.countP (slotOwns p) := by
  rw [List.countP_pos_iff]
  exact ⟨.live h, List.getElem?_mem hEl, by simp [slotOwns_live, hp]⟩

theorem wf_of_slot (p : Ptr) (l : List HSlot) (hwf : SlotsWF p l) (i : Nat)
    (h : intrusive_ptr) (hEl : l[i]? = some (.live h)) :
    h.m_pointer = 0 ∨ h.m_pointer = p :=
  hwf h (List.getElem?_mem hEl)

theorem wf_append (p : Ptr) (l : List HSlot) (hwf : SlotsWF p l)
    (x : intrusive_ptr) (hx : x.m_pointer = 0 ∨ x.m_pointer = p) :
    SlotsWF p (l ++ [.live x]) := by
  intro h hmem
  rcases List.mem_append.1 hmem with hm | hm
  · exact hwf h hm
  · have : h = x := by simpa using hm
    rw [this]
    exact hx

theorem wf_set_live (p : Ptr) (l : List HSlot) (hwf : SlotsWF p l) (i : Nat)
    (x : intrusive_ptr) (hx : x.m_pointer = 0 ∨ x.m_pointer = p) :
    SlotsWF p (l.set i (.live x)) := by
  intro h hmem
  rcases List.mem_or_eq_of_mem_set hmem with hm | hm
  · exact hwf h hm
  · have : h = x := by simpa using hm
    rw [this]
    exact hx

theorem wf_set_dead (p : Ptr) (l : List HSlot) (hwf : SlotsWF p l) (i : Nat) :
    SlotsWF p (l.set i .dead) := by
  intro h hmem
  rcases List.mem_or_eq_of_mem_set hmem with hm | hm
  · exact hwf h hm
  · simp at hm

theorem owning_set_eq (p : Ptr) (l : List HSlot) (i : Nat) (x y : HSlot)
    (hEl : l[i]? = some x) :
    (l.set i y).countP (slotOwns p) + (if slotOwns p x then 1 else 0)
      = l.countP (slotOwns p) + (if slotOwns p y then 1 else 0) := by
  obtain ⟨hi, hx⟩ := List.getElem?_eq_some.1 hEl
  rw [← hx]
  exact countP_set_aux _ l i y hi

theorem owning_append (p : Ptr) (l : List HSlot) (x : HSlot) :
    (l ++ [x]).countP (slotOwns p)
      = l.countP (slotOwns p) + (if slotOwns p x then 1 else 0) := by
  rw [List.countP_append]
  simp [List.countP_cons]

/-! The four net effects a valid operation can have on the designated
pointee, each preserving the trace invariant. -/

theorem traceInv_keep (p : Ptr) (c : Config) (hinv : TraceInv p c)
    (hs' : List HSlot) (k' : Nat) (hwf' : SlotsWF p hs')
    (hrefs : hs'.countP (slotOwns p) + k' = refs p c) :
    TraceInv p ⟨c.mem, hs', k'⟩ := by
  obtain ⟨hp, hwf, hcnt, hbal, h5, h6⟩ := hinv
  have hrefs' : refs p ⟨c.mem, hs', k'⟩ = refs p c := hrefs
  refine ⟨hp, hwf', ?_, ?_, ?_, ?_⟩
  · show (c.mem.heap p).counter = refs p ⟨c.mem, hs', k'⟩
    rw [hrefs']
    exact hcnt
  · show c.mem.incs p = c.mem.decs p + refs p ⟨c.mem, hs', k'⟩
    rw [hrefs']
    exact hbal
  · show (c.mem.heap p).alive = false → refs p ⟨c.mem, hs', k'⟩ = 0
    rw [hrefs']
    exact h5
  · show (c.mem.heap p).alive = true
      → 0 < refs p ⟨c.mem, hs', k'⟩ ∨ c.mem.incs p = 0
    rw [hrefs']
    exact h6

theorem traceInv_inc (p : Ptr) (c : Config) (hinv : TraceInv p c)
    (hs' : List HSlot) (k' : Nat) (hwf' : SlotsWF p hs')
    (hrefs : hs'.countP (slotOwns p) + k' = refs p c + 1)
    (halive : (c.mem.heap p).alive = true)
    (hbound : refs p c + 1 < U32MOD) :
    TraceInv p ⟨intrusive_ptr_add_ref c.mem p, hs', k'⟩ := by
  obtain ⟨hp, hwf, hcnt, hbal, h5, h6⟩ := hinv
  have heta : c.mem.heap p = ⟨(c.mem.heap p).alive, (c.mem.heap p).counter⟩ := rfl
  have hheap : c.mem.heap p = ⟨true, refs p c⟩ := by
    rw [heta, halive, hcnt]
  have hnew : (intrusive_ptr_add_ref c.mem p).heap p = ⟨true, refs p c + 1⟩ :=
    addRef_inv_spec c.mem p true (refs p c) hheap hbound
  have hA : ((intrusive_ptr_add_ref c.mem p).heap p).alive = true := by
    rw [hnew]
  have hC : ((intrusive_ptr_add_ref c.mem p).heap p).counter = refs p c + 1 := by
    rw [hnew]
  have hrefs' : refs p ⟨intrusive_ptr_add_ref c.mem p, hs', k'⟩ = refs p c + 1 :=
    hrefs
  refine ⟨hp, hwf', ?_, ?_, ?_, ?_⟩
  · show ((intrusive_ptr_add_ref c.mem p).heap p).counter
      = refs p ⟨intrusive_ptr_add_ref c.mem p, hs', k'⟩
    rw [hrefs']
    exact hC
  · show (intrusive_ptr_add_ref c.mem p).incs p
      = (intrusive_ptr_add_ref c.mem p).decs p
        + refs p ⟨intrusive_ptr_add_ref c.mem p, hs', k'⟩
    rw [hrefs', addRef_incs_same, addRef_decs, hbal]
    omega
  · intro hF
    rw [hA] at hF
    exact Bool.noConfusion hF
  · intro _
    left
    show 0 < refs p ⟨intrusive_ptr_add_ref c.mem p, hs', k'⟩
    rw [hrefs']
    omega

theorem traceInv_dec (p : Ptr) (c : Config) (hinv : TraceInv p c)
    (hs' : List HSlot) (k' : Nat) (hwf' : SlotsWF p hs')
    (hrefs : hs'.countP (slotOwns p) + k' + 1 = refs p c)
    (hltMOD : refs p c < U32MOD) :
    TraceInv p ⟨intrusive_ptr_release c.mem p, hs', k'⟩ := by
  obtain ⟨hp, hwf, hcnt, hbal, h5, h6⟩ := hinv
  have hR1 : 1 ≤ refs p c := by omega
  have halive : (c.mem.heap p).alive = true := by
    cases hA : (c.mem.heap p).alive with
    | false => exact absurd (h5 hA) (by omega)
    | true => rfl
  have heta : c.mem.heap p = ⟨(c.mem.heap p).alive, (c.mem.heap p).counter⟩ := rfl
  have hheap : c.mem.heap p = ⟨true, refs p c⟩ := by
    rw [heta, halive, hcnt]
  have hnew : (intrusive_ptr_release c.mem p).heap p
      = ⟨decide (0 < refs p c - 1), refs p c - 1⟩ :=
    release_inv_spec c.mem p (refs p c) hheap hR1 hltMOD
  have hA' : ((intrusive_ptr_release c.mem p).heap p).alive
      = decide (0 < refs p c - 1) := by
    rw [hnew]
  have hC' : ((intrusive_ptr_release c.mem p).heap p).counter
      = refs p c - 1 := by
    rw [hnew]
  have hrefs' : refs p ⟨intrusive_ptr_release c.mem p, hs', k'⟩
      = refs p c - 1 := by
    show hs'.countP (slotOwns p) + k' = refs p c - 1
    omega
  refine ⟨hp, hwf', ?_, ?_, ?_, ?_⟩
  · show ((intrusive_ptr_release c.mem p).heap p).counter
      = refs p ⟨intrusive_ptr_release c.mem p, hs', k'⟩
    rw [hrefs']
    exact hC'
  · show (intrusive_ptr_release c.mem p).incs p
      = (intrusive_ptr_release c.mem p).decs p
        + refs p ⟨intrusive_ptr_release c.mem p, hs', k'⟩
    rw [hrefs', congrFun (release_incs c.mem p) p, release_decs_same, hbal]
    omega
  · intro hF
    rw [hA'] at hF
    simp only [decide_eq_false_iff_not] at hF
    show refs p ⟨intrusive_ptr_release c.mem p, hs', k'⟩ = 0
    rw [hrefs']
    omega
  · intro hT
    rw [hA'] at hT
    simp only [decide_eq_true_eq] at hT
    left
    show 0 < refs p ⟨intrusive_ptr_release c.mem p, hs', k'⟩
    rw [hrefs']
    omega

theorem traceInv_incdec (p : Ptr) (c : Config) (hinv : TraceInv p c)
    (hs' : List HSlot) (k' : Nat) (hwf' : SlotsWF p hs')
    (hrefs : hs'.countP (slotOwns p) + k' = refs p c)
    (halive : (c.mem.heap p).alive = true)
    (hR1 : 1 ≤ refs p c)
    (hbound : refs p c + 1 < U32MOD) :
    TraceInv p
      ⟨intrusive_ptr_release (intrusive_ptr_add_ref c.mem p) p, hs', k'⟩ := by
  obtain ⟨hp, hwf, hcnt, hbal, h5, h6⟩ := hinv
  have heta : c.mem.heap p = ⟨(c.mem.heap p).alive, (c.mem.heap p).counter⟩ := rfl
  have hheap : c.mem.heap p = ⟨true, refs p c⟩ := by
    rw [heta, halive, hcnt]
  have hmid : (intrusive_ptr_add_ref c.mem p).heap p = ⟨true, refs p c + 1⟩ :=
    addRef_inv_spec c.mem p true (refs p c) hheap hbound
  have hnew : (intrusive_ptr_release (intrusive_ptr_add_ref c.mem p) p).heap p
      = ⟨decide (0 < refs p c + 1 - 1), refs p c + 1 - 1⟩ :=
    release_inv_spec (intrusive_ptr_add_ref c.mem p) p (refs p c + 1) hmid
      (by omega) hbound
  have hdec : decide (0 < refs p c + 1 - 1) = true := by
    simp only [decide_eq_true_eq]
    omega
  have hA : ((intrusive_ptr_release (intrusive_ptr_add_ref c.mem p) p).heap
      p).alive = true := by
    rw [hnew]
    exact hdec
  have hC : ((intrusive_ptr_release (intrusive_ptr_add_ref c.mem p) p).heap
      p).counter = refs p c := by
    rw [hnew]
    show refs p c + 1 - 1 = refs p c
    omega
  have hrefs' : refs p
      ⟨intrusive_ptr_release (intrusive_ptr_add_ref c.mem p) p, hs', k'⟩
      = refs p c := hrefs
  refine ⟨hp, hwf', ?_, ?_, ?_, ?_⟩
  · show ((intrusive_ptr_release (intrusive_ptr_add_ref c.mem p) p).heap
        p).counter
      = refs p ⟨intrusive_ptr_release (intrusive_ptr_add_ref c.mem p) p, hs', k'⟩
    rw [hrefs']
    exact hC
  · show (intrusive_ptr_release (intrusive_ptr_add_ref c.mem p) p).incs p
      = (intrusive_ptr_release (intrusive_ptr_add_ref c.mem p) p).decs p
        + refs p ⟨intrusive_ptr_release (intrusive_ptr_add_ref c.mem p) p,
            hs', k'⟩
    rw [hrefs', congrFun (release_incs _ p) p, release_decs_same,
      addRef_incs_same, addRef_decs, hbal]
    omega
  · intro hF
    rw [hA] at hF
    exact Bool.noConfusion hF
  · intro _
    left
    show 0 < refs p
      ⟨intrusive_ptr_release (intrusive_ptr_add_ref c.mem p) p, hs', k'⟩
    rw [hrefs']
    omega

/-- Small slot-ownership evaluation facts. -/
theorem so_null (p : Ptr) (hp : p ≠ 0) (h : intrusive_ptr)
    (h0 : h.m_pointer = 0) : slotOwns p (.live h) = false := by
  rw [slotOwns_live, h0]
  simp only [beq_eq_false_iff_ne]
  exact Ne.symm hp

theorem so_own (p : Ptr) (h : intrusive_ptr) (hP : h.m_pointer = p) :
    slotOwns p (.live h) = true := by
  rw [slotOwns_live, hP]
  simp

theorem ctorRaw_null (m : Mem) (b : Bool) : ipCtorRaw m 0 b = (m, ⟨0⟩) := by
  rw [ipCtorRaw, if_neg (by simp)]

theorem ifOwn_one (p : Ptr) (x : HSlot) (hx : slotOwns p x = true) :
    (if slotOwns p x then 1 else 0) = 1 := by
  simp [hx]

theorem ifOwn_zero (p : Ptr) (x : HSlot) (hx : slotOwns p x = false) :
    (if slotOwns p x then 1 else 0) = 0 := by
  simp [hx]

/-- Each valid step preserves the trace invariant and grows the reference
count by at most one. -/
theorem step_preserves (p : Ptr) (c c' : Config) (op : Op)
    (hinv : TraceInv p c) (hbound : refs p c + 1 < U32MOD)
    (hstep : step p c op = some c') :
    TraceInv p c' ∧ refs p c' ≤ refs p c + 1 := by
  obtain ⟨hp, hwf, hcnt, hbal, h5, h6⟩ := hinv
  have hinv0 : TraceInv p c := ⟨hp, hwf, hcnt, hbal, h5, h6⟩
  have hltM : refs p c < U32MOD := by omega
  cases op with
  | mkRaw b =>
    cases b with
    | true =>
      simp only [step] at hstep
      by_cases halive : (c.mem.heap p).alive = true
      · rw [if_pos halive] at hstep
        injection hstep with hc'
        subst hc'
        have h1 : (ipCtorRaw c.mem p true).1 = intrusive_ptr_add_ref c.mem p := by
          rw [ctorRaw_true c.mem p hp]
        have hcount : (c.hs ++ [HSlot.live ⟨p⟩]).countP (slotOwns p)
            = c.hs.countP (slotOwns p) + 1 := by
          rw [owning_append, so_own p ⟨p⟩ rfl]
          simp
        rw [h1, ctorRaw_handle]
        constructor
        · refine traceInv_inc p c hinv0 _ _
            (wf_append p c.hs hwf ⟨p⟩ (Or.inr rfl)) ?_ halive hbound
          simp only [refs, owning]
          rw [hcount]
          omega
        · simp only [refs, owning]
          rw [hcount]
          omega
      · rw [if_neg halive] at hstep
        cases hstep
    | false =>
      simp only [step] at hstep
      by_cases hk : 0 < c.k
      · rw [if_pos hk] at hstep
        injection hstep with hc'
        subst hc'
        simp only [ctorRaw_false]
        have hcount : (c.hs ++ [HSlot.live ⟨p⟩]).countP (slotOwns p)
            = c.hs.countP (slotOwns p) + 1 := by
          rw [owning_append, so_own p ⟨p⟩ rfl]
          simp
        constructor
        · refine traceInv_keep p c hinv0 _ _
            (wf_append p c.hs hwf ⟨p⟩ (Or.inr rfl)) ?_
          simp only [refs, owning]
          rw [hcount]
          omega
        · simp only [refs, owning]
          rw [hcount]
          omega
      · rw [if_neg hk] at hstep
        cases hstep
  | mkNull =>
    simp only [step] at hstep
    injection hstep with hc'
    subst hc'
    have hcount : (c.hs ++ [HSlot.live ⟨0⟩]).countP (slotOwns p)
        = c.hs.countP (slotOwns p) := by
      rw [owning_append, so_null p hp ⟨0⟩ rfl]
      simp
    constructor
    · refine traceInv_keep p c hinv0 _ _
        (wf_append p c.hs hwf ⟨0⟩ (Or.inl rfl)) ?_
      simp only [refs, owning]
      rw [show ipCtorDefault = (⟨0⟩ : intrusive_ptr) from rfl, hcount]
    · simp only [refs, owning]
      rw [show ipCtorDefault = (⟨0⟩ : intrusive_ptr) from rfl, hcount]
      omega
  | copyFrom i =>
    simp only [step] at hstep
    split at hstep
    case _ h hEl =>
      injection hstep with hc'
      subst hc'
      rcases wf_of_slot p c.hs hwf i h hEl with h0 | hP
      · simp only [ctorCopy_null c.mem h h0]
        have hcount : (c.hs ++ [HSlot.live ⟨h.m_pointer⟩]).countP (slotOwns p)
            = c.hs.countP (slotOwns p) := by
          rw [owning_append, so_null p hp ⟨h.m_pointer⟩ h0]
          simp
        constructor
        · refine traceInv_keep p c hinv0 _ _
            (wf_append p c.hs hwf ⟨h.m_pointer⟩ (Or.inl h0)) ?_
          simp only [refs, owning]
          rw [hcount]
        · simp only [refs, owning]
          rw [hcount]
          omega
      · have hone := owning_pos p c.hs i h hEl hP
        have halive : (c.mem.heap p).alive = true := by
          cases hA : (c.mem.heap p).alive with
          | false => exact absurd (h5 hA) (by simp only [refs, owning]; omega)
          | true => rfl
        have h1 : ipCtorCopy c.mem h = (intrusive_ptr_add_ref c.mem p, ⟨p⟩) := by
          rw [ctorCopy_own c.mem h (by rw [hP]; exact hp), hP]
        simp only [h1]
        have hcount : (c.hs ++ [HSlot.live ⟨p⟩]).countP (slotOwns p)
            = c.hs.countP (slotOwns p) + 1 := by
          rw [owning_append, so_own p ⟨p⟩ rfl]
          simp
        constructor
        · refine traceInv_inc p c hinv0 _ _
            (wf_append p c.hs hwf ⟨p⟩ (Or.inr rfl)) ?_ halive hbound
          simp only [refs, owning]
          rw [hcount]
          omega
        · simp only [refs, owning]
          rw [hcount]
          omega
    case _ => cases hstep
  | moveFrom i =>
    simp only [step] at hstep
    split at hstep
    case _ h hEl =>
      injection hstep with hc'
      subst hc'
      simp only [ipCtorMove]
      have e := owning_set_eq p c.hs i (.live h) (.live ⟨0⟩) hEl
      rw [so_null p hp ⟨0⟩ rfl] at e
      simp only [if_neg Bool.false_ne_true] at e
      have hso2 : slotOwns p (.live (⟨h.m_pointer⟩ : intrusive_ptr))
          = slotOwns p (.live h) := rfl
      have hcount : ((c.hs.set i (.live ⟨0⟩)) ++ [HSlot.live ⟨h.m_pointer⟩]).countP
            (slotOwns p)
          = (c.hs.set i (.live ⟨0⟩)).countP (slotOwns p)
            + (if slotOwns p (.live h) then 1 else 0) := by
        rw [owning_append, hso2]
      have hwf' : SlotsWF p ((c.hs.set i (.live ⟨0⟩)) ++ [HSlot.live ⟨h.m_pointer⟩]) :=
        wf_append p _ (wf_set_live p c.hs hwf i ⟨0⟩ (Or.inl rfl)) ⟨h.m_pointer⟩
          (wf_of_slot p c.hs hwf i h hEl)
      constructor
      · refine traceInv_keep p c hinv0 _ _ hwf' ?_
        simp only [refs, owning]
        rw [hcount]
        omega
      · simp only [refs, owning]
        rw [hcount]
        omega
    case _ => cases hstep
  | assignCopy d s =>
    simp only [step] at hstep
    split at hstep
    case _ hd hsc hEld hEls =>
      injection hstep with hc'
      subst hc'
      by_cases hps : hsc.m_pointer = hd.m_pointer
      · simp only [assignCopy_eq c.mem hd hsc hps]
        have e := owning_set_eq p c.hs d (.live hd) (.live hd) hEld
        have hwf' : SlotsWF p (c.hs.set d (.live hd)) :=
          wf_set_live p c.hs hwf d hd (wf_of_slot p c.hs hwf d hd hEld)
        constructor
        · refine traceInv_keep p c hinv0 _ _ hwf' ?_
          simp only [refs, owning]
          omega
        · simp only [refs, owning]
          omega
      · rcases wf_of_slot p c.hs hwf s hsc hEls with hs0 | hsP
        · rcases wf_of_slot p c.hs hwf d hd hEld with hd0 | hdP
          · exact absurd (hs0.trans hd0.symm) hps
          · have hdp : hd.m_pointer ≠ 0 := by rw [hdP]; exact hp
            simp only [assignCopy_ne c.mem hd hsc hps, ctorCopy_null c.mem hsc hs0,
              dtor_own c.mem hd hdp, hdP]
            have e := owning_set_eq p c.hs d (.live hd) (.live ⟨hsc.m_pointer⟩) hEld
            have v1 := ifOwn_one p (.live hd) (so_own p hd hdP)
            have v2 := ifOwn_zero p (.live ⟨hsc.m_pointer⟩)
              (so_null p hp ⟨hsc.m_pointer⟩ hs0)
            have hone := owning_pos p c.hs d hd hEld hdP
            have hwf' : SlotsWF p (c.hs.set d (.live ⟨hsc.m_pointer⟩)) :=
              wf_set_live p c.hs hwf d ⟨hsc.m_pointer⟩ (Or.inl hs0)
            constructor
            · refine traceInv_dec p c hinv0 _ _ hwf' ?_ hltM
              simp only [refs, owning]
              omega
            · simp only [refs, owning]
              omega
        · have hone := owning_pos p c.hs s hsc hEls hsP
          have halive : (c.mem.heap p).alive = true := by
            cases hA : (c.mem.heap p).alive with
            | false => exact absurd (h5 hA) (by simp only [refs, owning]; omega)
            | true => rfl
          have h1 : ipCtorCopy c.mem hsc = (intrusive_ptr_add_ref c.mem p, ⟨p⟩) := by
            rw [ctorCopy_own c.mem hsc (by rw [hsP]; exact hp), hsP]
          rcases wf_of_slot p c.hs hwf d hd hEld with hd0 | hdP
          · simp only [assignCopy_ne c.mem hd hsc hps, h1,
              dtor_null (intrusive_ptr_add_ref c.mem p) hd hd0]
            have e := owning_set_eq p c.hs d (.live hd) (.live ⟨p⟩) hEld
            have v1 := ifOwn_zero p (.live hd) (so_null p hp hd hd0)
            have v2 := ifOwn_one p (.live ⟨p⟩) (so_own p ⟨p⟩ rfl)
            have hwf' : SlotsWF p (c.hs.set d (.live ⟨p⟩)) :=
              wf_set_live p c.hs hwf d ⟨p⟩ (Or.inr rfl)
            constructor
            · refine traceInv_inc p c hinv0 _ _ hwf' ?_ halive hbound
              simp only [refs, owning]
              omega
            · simp only [refs, owning]
              omega
          · exact absurd (hsP.trans hdP.symm) hps
    case _ => cases hstep
  | assignMove d s =>
    simp only [step] at hstep
    split at hstep
    case _ hd hsc hEld hEls =>
      injection hstep with hc'
      subst hc'
      by_cases hds : d = s
      · subst hds
        rw [hEld] at hEls
        injection hEls with h2
        injection h2 with h3
        subst h3
        have hps : hd.m_pointer = hd.m_pointer := rfl
        simp only [assignMove_eq c.mem hd hd rfl, List.set_set]
        have e := owning_set_eq p c.hs d (.live hd) (.live hd) hEld
        have hwf' : SlotsWF p (c.hs.set d (.live hd)) :=
          wf_set_live p c.hs hwf d hd (wf_of_slot p c.hs hwf d hd hEld)
        constructor
        · refine traceInv_keep p c hinv0 _ _ hwf' ?_
          simp only [refs, owning]
          omega
        · simp only [refs, owning]
          omega
      · have hsd : s ≠ d := fun hh => hds hh.symm
        have hEld' : (c.hs.set s (.live (⟨0⟩ : intrusive_ptr)))[d]?
            = some (.live hd) := by
          rw [List.getElem?_set_ne hsd]
          exact hEld
        by_cases hps : hsc.m_pointer = hd.m_pointer
        · simp only [assignMove_eq c.mem hd hsc hps]
          have hEld2 : (c.hs.set s (.live hsc))[d]? = some (.live hd) := by
            rw [List.getElem?_set_ne hsd]
            exact hEld
          have e1 := owning_set_eq p c.hs s (.live hsc) (.live hsc) hEls
          have e2 := owning_set_eq p (c.hs.set s (.live hsc)) d (.live hd)
            (.live hd) hEld2
          have hwf1 : SlotsWF p (c.hs.set s (.live hsc)) :=
            wf_set_live p c.hs hwf s hsc (wf_of_slot p c.hs hwf s hsc hEls)
          have hwf' : SlotsWF p ((c.hs.set s (.live hsc)).set d (.live hd)) :=
            wf_set_live p _ hwf1 d hd (wf_of_slot p c.hs hwf d hd hEld)
          constructor
          · refine traceInv_keep p c hinv0 _ _ hwf' ?_
            simp only [refs, owning]
            omega
          · simp only [refs, owning]
            omega
        · simp only [assignMove_ne c.mem hd hsc hps]
          have e1 := owning_set_eq p c.hs s (.live hsc) (.live ⟨0⟩) hEls
          have w1 := ifOwn_zero p (.live ⟨0⟩) (so_null p hp ⟨0⟩ rfl)
          have e2 := owning_set_eq p (c.hs.set s (.live ⟨0⟩)) d (.live hd)
            (.live ⟨hsc.m_pointer⟩) hEld'
          have hwf1 : SlotsWF p (c.hs.set s (.live ⟨0⟩)) :=
            wf_set_live p c.hs hwf s ⟨0⟩ (Or.inl rfl)
          have hwfsc := wf_of_slot p c.hs hwf s hsc hEls
          have hwf' : SlotsWF p
              ((c.hs.set s (.live ⟨0⟩)).set d (.live ⟨hsc.m_pointer⟩)) :=
            wf_set_live p _ hwf1 d ⟨hsc.m_pointer⟩ hwfsc
          rcases hwfsc with hs0 | hsP
          · rcases wf_of_slot p c.hs hwf d hd hEld with hd0 | hdP
            · exact absurd (hs0.trans hd0.symm) hps
            · have hdp : hd.m_pointer ≠ 0 := by rw [hdP]; exact hp
              simp only [dtor_own c.mem hd hdp, hdP]
              have v1 := ifOwn_one p (.live hd) (so_own p hd hdP)
              have v2 := ifOwn_zero p (.live hsc) (so_null p hp hsc hs0)
              have v3 := ifOwn_zero p (.live (⟨hsc.m_pointer⟩ : intrusive_ptr))
                (so_null p hp ⟨hsc.m_pointer⟩ hs0)
              have hone := owning_pos p c.hs d hd hEld hdP
              constructor
              · refine traceInv_dec p c hinv0 _ _ hwf' ?_ hltM
                simp only [refs, owning]
                omega
              · simp only [refs, owning]
                omega
          · rcases wf_of_slot p c.hs hwf d hd hEld with hd0 | hdP
            · simp only [dtor_null c.mem hd hd0]
              have v1 := ifOwn_zero p (.live hd) (so_null p hp hd hd0)
              have v2 := ifOwn_one p (.live hsc) (so_own p hsc hsP)
              have v3 := ifOwn_one p (.live (⟨hsc.m_pointer⟩ : intrusive_ptr))
                (so_own p ⟨hsc.m_pointer⟩ hsP)
              have hone := owning_pos p c.hs s hsc hEls hsP
              constructor
              · refine traceInv_keep p c hinv0 _ _ hwf' ?_
                simp only [refs, owning]
                omega
              · simp only [refs, owning]
                omega
            · exact absurd (hsP.trans hdP.symm) hps
    case _ => cases hstep
  | assignRaw0 d =>
    simp only [step] at hstep
    split at hstep
    case _ hd hEl =>
      injection hstep with hc'
      subst hc'
      simp only [assignRaw_unfold, ctorRaw_null]
      rcases wf_of_slot p c.hs hwf d hd hEl with hd0 | hdP
      · simp only [dtor_null c.mem hd hd0]
        have e := owning_set_eq p c.hs d (.live hd) (.live ⟨0⟩) hEl
        have v1 := ifOwn_zero p (.live hd) (so_null p hp hd hd0)
        have v2 := ifOwn_zero p (.live ⟨0⟩) (so_null p hp ⟨0⟩ rfl)
        have hwf' := wf_set_live p c.hs hwf d ⟨0⟩ (Or.inl rfl)
        constructor
        · refine traceInv_keep p c hinv0 _ _ hwf' ?_
          simp only [refs, owning]
          omega
        · simp only [refs, owning]
          omega
      · have hdp : hd.m_pointer ≠ 0 := by rw [hdP]; exact hp
        simp only [dtor_own c.mem hd hdp, hdP]
        have e := owning_set_eq p c.hs d (.live hd) (.live ⟨0⟩) hEl
        have v1 := ifOwn_one p (.live hd) (so_own p hd hdP)
        have v2 := ifOwn_zero p (.live ⟨0⟩) (so_null p hp ⟨0⟩ rfl)
        have hone := owning_pos p c.hs d hd hEl hdP
        have hwf' := wf_set_live p c.hs hwf d ⟨0⟩ (Or.inl rfl)
        constructor
        · refine traceInv_dec p c hinv0 _ _ hwf' ?_ hltM
          simp only [refs, owning]
          omega
        · simp only [refs, owning]
          omega
    case _ => cases hstep
  | assignRawP d =>
    simp only [step] at hstep
    by_cases halive : (c.mem.heap p).alive = true
    · rw [if_pos halive] at hstep
      split at hstep
      case _ hd hEl =>
        injection hstep with hc'
        subst hc'
        simp only [assignRaw_unfold, ctorRaw_true c.mem p hp]
        rcases wf_of_slot p c.hs hwf d hd hEl with hd0 | hdP
        · simp only [dtor_null (intrusive_ptr_add_ref c.mem p) hd hd0]
          have e := owning_set_eq p c.hs d (.live hd) (.live ⟨p⟩) hEl
          have v1 := ifOwn_zero p (.live hd) (so_null p hp hd hd0)
          have v2 := ifOwn_one p (.live ⟨p⟩) (so_own p ⟨p⟩ rfl)
          have hwf' := wf_set_live p c.hs hwf d ⟨p⟩ (Or.inr rfl)
          constructor
          · refine traceInv_inc p c hinv0 _ _ hwf' ?_ halive hbound
            simp only [refs, owning]
            omega
          · simp only [refs, owning]
            omega
        · have hdp : hd.m_pointer ≠ 0 := by rw [hdP]; exact hp
          simp only [dtor_own (intrusive_ptr_add_ref c.mem p) hd hdp, hdP]
          have e := owning_set_eq p c.hs d (.live hd) (.live ⟨p⟩) hEl
          have v1 := ifOwn_one p (.live hd) (so_own p hd hdP)
          have v2 := ifOwn_one p (.live ⟨p⟩) (so_own p ⟨p⟩ rfl)
          have hone := owning_pos p c.hs d hd hEl hdP
          have hwf' := wf_set_live p c.hs hwf d ⟨p⟩ (Or.inr rfl)
          constructor
          · refine traceInv_incdec p c hinv0 _ _ hwf' ?_ halive
              (by simp only [refs, owning]; omega) hbound
            simp only [refs, owning]
            omega
          · simp only [refs, owning]
            omega
      case _ => cases hstep
    · rw [if_neg halive] at hstep
      cases hstep
  | reset d =>
    simp only [step] at hstep
    split at hstep
    case _ hd hEl =>
      injection hstep with hc'
      subst hc'
      rcases wf_of_slot p c.hs hwf d hd hEl with hd0 | hdP
      · simp only [reset0_null c.mem hd hd0]
        have e := owning_set_eq p c.hs d (.live hd) (.live hd) hEl
        have hwf' := wf_set_live p c.hs hwf d hd (Or.inl hd0)
        constructor
        · refine traceInv_keep p c hinv0 _ _ hwf' ?_
          simp only [refs, owning]
          omega
        · simp only [refs, owning]
          omega
      · have hdp : hd.m_pointer ≠ 0 := by rw [hdP]; exact hp
        simp only [reset0_own c.mem hd hdp, hdP]
        have e := owning_set_eq p c.hs d (.live hd) (.live ⟨0⟩) hEl
        have v1 := ifOwn_one p (.live hd) (so_own p hd hdP)
        have v2 := ifOwn_zero p (.live ⟨0⟩) (so_null p hp ⟨0⟩ rfl)
        have hone := owning_pos p c.hs d hd hEl hdP
        have hwf' := wf_set_live p c.hs hwf d ⟨0⟩ (Or.inl rfl)
        constructor
        · refine traceInv_dec p c hinv0 _ _ hwf' ?_ hltM
          simp only [refs, owning]
          omega
        · simp only [refs, owning]
          omega
    case _ => cases hstep
  | resetP d b =>
    simp only [step] at hstep
    split at hstep
    case _ hd hEl =>
      cases b with
      | true =>
        rw [if_pos (show (true : Bool) = true from rfl)] at hstep
        by_cases halive : (c.mem.heap p).alive = true
        · rw [if_pos halive] at hstep
          injection hstep with hc'
          subst hc'
          simp only [resetFlag_unfold, ctorRaw_true c.mem p hp]
          rcases wf_of_slot p c.hs hwf d hd hEl with hd0 | hdP
          · simp only [dtor_null (intrusive_ptr_add_ref c.mem p) hd hd0]
            have e := owning_set_eq p c.hs d (.live hd) (.live ⟨p⟩) hEl
            have v1 := ifOwn_zero p (.live hd) (so_null p hp hd hd0)
            have v2 := ifOwn_one p (.live ⟨p⟩) (so_own p ⟨p⟩ rfl)
            have hwf' := wf_set_live p c.hs hwf d ⟨p⟩ (Or.inr rfl)
            constructor
            · refine traceInv_inc p c hinv0 _ _ hwf' ?_ halive hbound
              simp only [refs, owning]
              omega
            · simp only [refs, owning]
              omega
          · have hdp : hd.m_pointer ≠ 0 := by rw [hdP]; exact hp
            simp only [dtor_own (intrusive_ptr_add_ref c.mem p) hd hdp, hdP]
            have e := owning_set_eq p c.hs d (.live hd) (.live ⟨p⟩) hEl
            have v1 := ifOwn_one p (.live hd) (so_own p hd hdP)
            have v2 := ifOwn_one p (.live ⟨p⟩) (so_own p ⟨p⟩ rfl)
            have hone := owning_pos p c.hs d hd hEl hdP
            have hwf' := wf_set_live p c.hs hwf d ⟨p⟩ (Or.inr rfl)
            constructor
            · refine traceInv_incdec p c hinv0 _ _ hwf' ?_ halive
                (by simp only [refs, owning]; omega) hbound
              simp only [refs, owning]
              omega
            · simp only [refs, owning]
              omega
        · rw [if_neg halive] at hstep
          cases hstep
      | false =>
        rw [if_neg (show ¬(false : Bool) = true by simp)] at hstep
        by_cases hk : 0 < c.k
        · rw [if_pos hk] at hstep
          injection hstep with hc'
          subst hc'
          simp only [resetFlag_unfold, ctorRaw_false]
          rcases wf_of_slot p c.hs hwf d hd hEl with hd0 | hdP
          · simp only [dtor_null c.mem hd hd0]
            have e := owning_set_eq p c.hs d (.live hd) (.live ⟨p⟩) hEl
            have v1 := ifOwn_zero p (.live hd) (so_null p hp hd hd0)
            have v2 := ifOwn_one p (.live ⟨p⟩) (so_own p ⟨p⟩ rfl)
            have hwf' := wf_set_live p c.hs hwf d ⟨p⟩ (Or.inr rfl)
            constructor
            · refine traceInv_keep p c hinv0 _ _ hwf' ?_
              simp only [refs, owning]
              omega
            · simp only [refs, owning]
              omega
          · have hdp : hd.m_pointer ≠ 0 := by rw [hdP]; exact hp
            simp only [dtor_own c.mem hd hdp, hdP]
            have e := owning_set_eq p c.hs d (.live hd) (.live ⟨p⟩) hEl
            have v1 := ifOwn_one p (.live hd) (so_own p hd hdP)
            have v2 := ifOwn_one p (.live ⟨p⟩) (so_own p ⟨p⟩ rfl)
            have hone := owning_pos p c.hs d hd hEl hdP
            have hwf' := wf_set_live p c.hs hwf d ⟨p⟩ (Or.inr rfl)
            constructor
            · refine traceInv_dec p c hinv0 _ _ hwf' ?_ hltM
              simp only [refs, owning]
              omega
            · simp only [refs, owning]
              omega
        · rw [if_neg hk] at hstep
          cases hstep
    case _ => cases hstep
  | detach d =>
    simp only [step] at hstep
    split at hstep
    case _ hd hEl =>
      injection hstep with hc'
      subst hc'
      simp only [intrusive_ptr.detach]
      rcases wf_of_slot p c.hs hwf d hd hEl with hd0 | hdP
      · rw [if_pos hd0]
        have e := owning_set_eq p c.hs d (.live hd) (.live ⟨0⟩) hEl
        have v1 := ifOwn_zero p (.live hd) (so_null p hp hd hd0)
        have v2 := ifOwn_zero p (.live ⟨0⟩) (so_null p hp ⟨0⟩ rfl)
        have hwf' := wf_set_live p c.hs hwf d ⟨0⟩ (Or.inl rfl)
        constructor
        · refine traceInv_keep p c hinv0 _ _ hwf' ?_
          simp only [refs, owning]
          omega
        · simp only [refs, owning]
          omega
      · rw [if_neg (by rw [hdP]; exact hp)]
        have e := owning_set_eq p c.hs d (.live hd) (.live ⟨0⟩) hEl
        have v1 := ifOwn_one p (.live hd) (so_own p hd hdP)
        have v2 := ifOwn_zero p (.live ⟨0⟩) (so_null p hp ⟨0⟩ rfl)
        have hone := owning_pos p c.hs d hd hEl hdP
        have hwf' := wf_set_live p c.hs hwf d ⟨0⟩ (Or.inl rfl)
        constructor
        · refine traceInv_keep p c hinv0 _ _ hwf' ?_
          simp only [refs, owning]
          omega
        · simp only [refs, owning]
          omega
    case _ => cases hstep
  | destroy d =>
    simp only [step] at hstep
    split at hstep
    case _ hd hEl =>
      injection hstep with hc'
      subst hc'
      rcases wf_of_slot p c.hs hwf d hd hEl with hd0 | hdP
      · simp only [dtor_null c.mem hd hd0]
        have e := owning_set_eq p c.hs d (.live hd) .dead hEl
        have v1 := ifOwn_zero p (.live hd) (so_null p hp hd hd0)
        have v2 : (if slotOwns p HSlot.dead then 1 else 0) = 0 :=
          ifOwn_zero p .dead rfl
        have hwf' := wf_set_dead p c.hs hwf d
        constructor
        · refine traceInv_keep p c hinv0 _ _ hwf' ?_
          simp only [refs, owning]
          omega
        · simp only [refs, owning]
          omega
      · have hdp : hd.m_pointer ≠ 0 := by rw [hdP]; exact hp
        simp only [dtor_own c.mem hd hdp, hdP]
        have e := owning_set_eq p c.hs d (.live hd) .dead hEl
        have v1 := ifOwn_one p (.live hd) (so_own p hd hdP)
        have v2 : (if slotOwns p HSlot.dead then 1 else 0) = 0 :=
          ifOwn_zero p .dead rfl
        have hone := owning_pos p c.hs d hd hEl hdP
        have hwf' := wf_set_dead p c.hs hwf d
        constructor
        · refine traceInv_dec p c hinv0 _ _ hwf' ?_ hltM
          simp only [refs, owning]
          omega
        · simp only [refs, owning]
          omega
    case _ => cases hstep

/-- Running a whole trace preserves the invariant; the reference count
grows by at most the number of operations. -/
theorem run_inv (p : Ptr) : ∀ (ops : List Op) (c c' : Config),
    TraceInv p c → refs p c + ops.length < U32MOD →
    run p c ops = some c' →
    TraceInv p c' ∧ refs p c' ≤ refs p c + ops.length := by
  intro ops
  induction ops with
  | nil =>
    intro c c' hinv hb hrun
    simp only [run] at hrun
    injection hrun with h
    subst h
    exact ⟨hinv, by omega⟩
  | cons op ops ih =>
    intro c c' hinv hb hrun
    rw [List.length_cons] at hb
    simp only [run] at hrun
    cases hstep : step p c op with
    | none =>
      rw [hstep] at hrun
      exact Option.noConfusion hrun
    | some c1 =>
      rw [hstep] at hrun
      have hrun1 : run p c1 ops = some c' := hrun
      have h1 := step_preserves p c c1 op hinv (by omega) hstep
      have h2 := ih c1 c' h1.1 (by omega) hrun1
      refine ⟨h2.1, ?_⟩
      rw [List.length_cons]
      omega

/-- C1: for every finite sequence of handle operations (construction with
or without the initial increment, copy, move, assignment, reset, detach,
destruction) on handles aliasing a single freshly allocated pointee, at
every point of the trace the embedded counter equals the number of
currently-live owning references (owning handles plus detached raw
references), the increments performed equal the decrements performed plus
the outstanding references — so they are exactly equal by the time the
last reference disappears — the pointee is destroyed only at an operation
that brings the count to zero, and once the count of a previously
referenced pointee is zero the pointee has indeed been destroyed, exactly
once (dead pointees admit no further owning operations). -/
theorem C1_refcount_governs_destruction (p : Ptr) (m0 : Mem) (ops : List Op)
    (c' : Config) (hp : p ≠ 0)
    (hfresh : m0.heap p = ⟨true, 0⟩)
    (hincs : m0.incs p = 0) (hdecs : m0.decs p = 0)
    (hlen : ops.length < U32MOD)
    (hrun : run p ⟨m0, [], 0⟩ ops = some c') :
    (c'.mem.heap p).counter = refs p c' ∧
    c'.mem.incs p = c'.mem.decs p + refs p c' ∧
    ((c'.mem.heap p).alive = false → refs p c' = 0) ∧
    (refs p c' = 0 → 0 < c'.mem.incs p →
      (c'.mem.heap p).alive = false ∧ c'.mem.incs p = c'.mem.decs p) := by
  have hrefs0 : refs p ⟨m0, [], 0⟩ = 0 := by
    simp only [refs, owning]
    rfl
  have hinv0 : TraceInv p ⟨m0, [], 0⟩ := by
    refine ⟨hp, ?_, ?_, ?_, ?_, ?_⟩
    · intro h hmem
      simp at hmem
    · show (m0.heap p).counter = refs p ⟨m0, [], 0⟩
      rw [hrefs0, hfresh]
    · show m0.incs p = m0.decs p + refs p ⟨m0, [], 0⟩
      rw [hrefs0, hincs, hdecs]
    · intro _
      exact hrefs0
    · intro _
      right
      exact hincs
  have hres := run_inv p ops ⟨m0, [], 0⟩ c' hinv0 (by rw [hrefs0]; omega) hrun
  obtain ⟨⟨_, _, hcnt, hbal, h5, h6⟩, _⟩ := hres
  refine ⟨hcnt, hbal, h5, ?_⟩
  intro hz hpos
  cases hA : (c'.mem.heap p).alive with
  | true =>
    rcases h6 hA with h | h
    · exact absurd h (by omega)
    · exact absurd h (by omega)
  | false =>
    exact ⟨rfl, by omega⟩

/-- The witness trace: wrap the pointee (count 1), copy (count 2),
destroy the original (count 1), move into a third handle (count 1),
destroy the emptied source (count 1), destroy the last owner (count 0,
pointee destroyed). -/
def opsW : List Op :=
  [.mkRaw true, .copyFrom 0, .destroy 0, .moveFrom 1, .destroy 1, .destroy 2]

/-- The configuration reached by the witness trace. -/
def cW : Config :=
  match run 1 ⟨memZero, [], 0⟩ opsW with
  | some c => c
  | none => ⟨memZero, [], 0⟩

theorem cW_run : run 1 ⟨memZero, [], 0⟩ opsW = some cW := rfl

/-- C1 witness: the scenario trace satisfies every conclusion. -/
theorem C1_refcount_governs_destruction_witness :
    (cW.mem.heap 1).counter = refs 1 cW ∧
    cW.mem.incs 1 = cW.mem.decs 1 + refs 1 cW ∧
    ((cW.mem.heap 1).alive = false → refs 1 cW = 0) ∧
    (refs 1 cW = 0 → 0 < cW.mem.incs 1 →
      (cW.mem.heap 1).alive = false ∧ cW.mem.incs 1 = cW.mem.decs 1) :=
  C1_refcount_governs_destruction 1 memZero opsW cW (by decide) rfl rfl rfl
    (by rw [U32MOD_val]; norm_num [opsW]) cW_run
